import Mathlib

/-!
Verification development for the MTex span-parsing engine
(manimlib/mobject/svg/mtex_mobject.py).

The Python source is embedded shallowly: the span registry is an
insertion-ordered association list (mirroring a Python dict), machine
integers are Nat/Int, regex scanners are explicit character scans, and
fallible code returns explicit result types.  Functions keep the names of
the source methods where Lean allows it.
-/

namespace MTex

/-- Half-open byte range into the source string, as in the Python span tuples. -/
abbrev Span := Nat × Nat

/-- Source function _contains: span_0[0] <= span_1[0] and span_1[1] <= span_0[1]. -/
def spanContains (span0 span1 : Span) : Bool :=
  span0.1 ≤ span1.1 && span1.2 ≤ span0.2

/-- Source class _TexSpan: script_type (0 normal, 1 subscript, 2 superscript),
label, containing_labels. -/
structure TexSpan where
  scriptType : Nat
  label : Nat
  containingLabels : List Nat
deriving DecidableEq, Repr

/-- State of _TexParser: the tex string, the insertion-ordered registry
tex_spans_dict, specified_substrings, and current_label. -/
structure ParserState where
  texString : List Char
  dict : List (Span × TexSpan)
  specified : List (List Char)
  currentLabel : Nat
deriving DecidableEq, Repr

/-- Errors of the parsing phases.  popFromEmptyStack models the unstructured
Python IndexError from left_brace_indices.pop() on an empty list; the other
three model the structured errors (ValueError / sys.exit) of the source. -/
inductive ParseError where
  | popFromEmptyStack
  | unmatchedBraces
  | unclearScript
  | overlappingSpans
deriving DecidableEq, Repr

/-- Result of a fallible parsing step. -/
inductive PResult (α : Type) where
  | ok (val : α)
  | err (e : ParseError)
deriving DecidableEq, Repr

/-- Python slice tex_string[b:e]. -/
def sliceOf (s : List Char) (sp : Span) : List Char :=
  (s.take sp.2).drop sp.1

def spanKeys (st : ParserState) : List Span := st.dict.map (·.1)

/-- Source method add_tex_span: a no-op if the range is already a key;
otherwise appends the new span, consuming a fresh label when script_type is 0. -/
def addTexSpan (st : ParserState) (span : Span) (scriptType : Nat) (label : Nat) :
    ParserState :=
  if st.dict.any (fun e => e.1 == span) then st
  else if scriptType == 0 then
    { st with dict := st.dict ++ [(span, ⟨0, st.currentLabel, []⟩)],
              currentLabel := st.currentLabel + 1 }
  else
    { st with dict := st.dict ++ [(span, ⟨scriptType, label, []⟩)] }

/-- Source method add_specified_substring. -/
def addSpecifiedSubstring (st : ParserState) (span : Span) : ParserState :=
  { st with specified := st.specified ++ [sliceOf st.texString span] }

/-- Scanner for get_brace_index_pairs: walks the characters tracking the run of
immediately preceding backslashes (the regex counts braces preceded by an even
number of backslashes), a stack of open-brace indices, and the pairs collected
in order of the closing brace. -/
def braceScanAux : List Char → Nat → Nat → List Nat → List Span → PResult (List Span)
  | [], _, _, stack, acc =>
      if stack.isEmpty then .ok acc else .err .unmatchedBraces
  | c :: rest, i, run, stack, acc =>
      if c = '\x7b' then
        if run % 2 == 0 then braceScanAux rest (i + 1) 0 (i :: stack) acc
        else braceScanAux rest (i + 1) 0 stack acc
      else if c = '\x7d' then
        if run % 2 == 0 then
          match stack with
          | [] => .err .popFromEmptyStack
          | top :: stk => braceScanAux rest (i + 1) 0 stk (acc ++ [(top, i + 1)])
        else braceScanAux rest (i + 1) 0 stack acc
      else if c = '\\' then braceScanAux rest (i + 1) (run + 1) stack acc
      else braceScanAux rest (i + 1) 0 stack acc

/-- Source method get_brace_index_pairs. -/
def getBraceIndexPairs (s : List Char) : PResult (List Span) :=
  braceScanAux s 0 0 [] []

/-- Source helper _get_neighbouring_pairs: consecutive pairs of a list. -/
def neighbouringPairs (l : List α) : List (α × α) := l.zip (l.drop 1)

/-- Insert into a sorted list, before the first element the new one compares
at most equal to.  Structural recursion so that closed computations reduce. -/
def insertSortedBy (le : α → α → Bool) (a : α) : List α → List α
  | [] => [a]
  | b :: l => if le a b then a :: b :: l else b :: insertSortedBy le a l

/-- Stable insertion sort modelling the Python sorted builtin. -/
def sortBy (le : α → α → Bool) : List α → List α
  | [] => []
  | a :: l => insertSortedBy le a (sortBy le l)

/-- Loop of break_up_by_double_braces over neighbouring brace pairs with the
skip flag that consumes both pairs of a matched double brace. -/
def doubleBraceAux : List (Span × Span) → Bool → ParserState → ParserState
  | [], _, st => st
  | (prev, cur) :: rest, skip, st =>
      if skip then doubleBraceAux rest false st
      else if cur.1 + 1 == prev.1 && cur.2 == prev.2 + 1 then
        doubleBraceAux rest true (addSpecifiedSubstring (addTexSpan st cur 0 0) cur)
      else doubleBraceAux rest false st

/-- Source method break_up_by_double_braces. -/
def breakUpByDoubleBraces (braces : List Span) (st : ParserState) : ParserState :=
  doubleBraceAux (neighbouringPairs braces) false st

/-- Python whitespace class (ASCII part of the regex class). -/
def wsChar (c : Char) : Bool :=
  c = ' ' || c = '\t' || c = '\n' || c = '\r' || c = '\x0b' || c = '\x0c'

/-- Python word character class (ASCII part). -/
def wordChar (c : Char) : Bool := c.isAlphanum || c = '_'

/-- First index at or after i holding a non-whitespace character. -/
def skipWs (s : List Char) (i : Nat) : Nat :=
  i + ((s.drop i).takeWhile wsChar).length

def scriptTy (c : Char) : Nat := if c = '_' then 1 else 2

/-- Scanner for the script-token regex of break_up_by_scripts: an unescaped
underscore or caret with trailing whitespace, or whitespace followed by an
underscore or caret and trailing whitespace.  Returns
(token_begin, token_end, script_type) triples in scan order.  The Boolean
argument records whether the previous character is a backslash (the negative
lookbehind).  Fuel-based recursion; the initial fuel covers the whole scan. -/
def scriptScanAux (s : List Char) : Nat → Nat → Bool → List (Nat × Nat × Nat)
  | 0, _, _ => []
  | fuel + 1, i, prevBS =>
      if i < s.length then
        let c := s.getD i ' '
        if (c = '_' || c = '^') && !prevBS then
          let te := skipWs s (i + 1)
          (i, te, scriptTy c) :: scriptScanAux s fuel te false
        else if wsChar c then
          let q := skipWs s i
          let c2 := s.getD q ' '
          if q < s.length && (c2 = '_' || c2 = '^') then
            let te := skipWs s (q + 1)
            (i, te, scriptTy c2) :: scriptScanAux s fuel te false
          else scriptScanAux s fuel (i + 1) false
        else scriptScanAux s fuel (i + 1) (c = '\\')
      else []

def scriptScan (s : List Char) : List (Nat × Nat × Nat) :=
  scriptScanAux s (s.length + 1) 0 false

/-- Content span of a script token ending at te: the brace group starting at te
if one does, else a single word character, else a backslash command word. -/
def contentSpanFor (s : List Char) (braces : List Span) (te : Nat) : Option Span :=
  match braces.find? (fun p => p.1 == te) with
  | some p => some (te, p.2)
  | none =>
      let c := s.getD te ' '
      if te < s.length && wordChar c then some (te, te + 1)
      else if te < s.length && c = '\\' then
        let k := ((s.drop (te + 1)).takeWhile (fun d => d.isAlpha)).length
        if k > 0 then some (te, te + 1 + k) else none
      else none

/-- Loop of break_up_by_scripts over the scanned tokens: add the content span
as a normal span, read its label back from the registry, then add the wrapper
span from the token begin to the content end with that label. -/
def breakUpByScriptsAux (braces : List Span) :
    List (Nat × Nat × Nat) → ParserState → PResult ParserState
  | [], st => .ok st
  | (tb, te, ty) :: rest, st =>
      match contentSpanFor st.texString braces te with
      | none => .err .unclearScript
      | some cs =>
          let st1 := addTexSpan st cs 0 0
          let lab := ((st1.dict.find? (fun e => e.1 == cs)).map (fun e => e.2.label)).getD 0
          breakUpByScriptsAux braces rest (addTexSpan st1 (tb, cs.2) ty lab)

/-- Occurrence scanner for re.finditer of an escaped literal: leftmost,
non-overlapping matches; the empty pattern matches at every position. -/
def occurrencesAux (s pat : List Char) : Nat → Nat → List Span
  | 0, _ => []
  | fuel + 1, i =>
      if i + pat.length ≤ s.length then
        if (s.drop i).take pat.length == pat then
          (i, i + pat.length) :: occurrencesAux s pat fuel (i + pat.length)
        else occurrencesAux s pat fuel (i + 1)
      else []

def occurrences (s pat : List Char) : List Span :=
  if pat.isEmpty then (List.range (s.length + 1)).map (fun i => (i, i))
  else occurrencesAux s pat (s.length + 1) 0

/-- Insertion into a Python dict modelled as an ordered association list:
an existing key keeps its position and takes the new value. -/
def dictInsert (d : List (Nat × Nat)) (kv : Nat × Nat) : List (Nat × Nat) :=
  if d.any (fun e => e.1 == kv.1) then
    d.map (fun e => if e.1 == kv.1 then (e.1, kv.2) else e)
  else d ++ [kv]

def buildPyDict (kvs : List (Nat × Nat)) : List (Nat × Nat) :=
  kvs.foldl dictInsert []

/-- The script_spans_dict of break_up_by_additional_substrings: reversed
(end, begin) pairs of the script-typed spans, with Python dict semantics. -/
def scriptSpansDict (st : ParserState) : List (Nat × Nat) :=
  buildPyDict (st.dict.filterMap
    (fun e => if e.2.scriptType == 0 then none else some (e.1.2, e.1.1)))

/-- The while loop narrowing an end index through the script dict.  Each real
script entry maps an end to a smaller begin, so fuel e+1 runs it to fixpoint. -/
def walkEnd (d : List (Nat × Nat)) : Nat → Nat → Nat
  | 0, e => e
  | fuel + 1, e =>
      match d.find? (fun kv => kv.1 == e) with
      | none => e
      | some kv => walkEnd d fuel kv.2

/-- Loop of break_up_by_additional_substrings over the collected occurrence
spans: when the occurrence end is among the dict values, narrow it by the while
loop and discard the occurrence if the range became empty; otherwise add the
span and record the substring. -/
def processAdditionalAux (d : List (Nat × Nat)) : List Span → ParserState → ParserState
  | [], st => st
  | (b, e) :: rest, st =>
      if d.any (fun kv => kv.2 == e) then
        let e2 := walkEnd d (e + 1) e
        if e2 ≤ b then processAdditionalAux d rest st
        else processAdditionalAux d rest
          (addSpecifiedSubstring (addTexSpan st (b, e2) 0 0) (b, e2))
      else processAdditionalAux d rest
        (addSpecifiedSubstring (addTexSpan st (b, e) 0 0) (b, e))

/-- Source method break_up_by_additional_substrings. -/
def breakUpByAdditionalSubstrings (st : ParserState) (strings : List (List Char)) :
    ParserState :=
  processAdditionalAux (scriptSpansDict st)
    ((strings.map (fun pat => occurrences st.texString pat)).flatten) st

/-- Sort key of check_if_overlap: ascending start, descending end. -/
def sortKeyLe (a b : Span) : Bool :=
  a.1 < b.1 || (a.1 == b.1 && b.2 ≤ a.2)

/-- Inner double loop of check_if_overlap on the sorted key list. -/
def collectOverlaps : List Span → List (Span × Span)
  | [] => []
  | s :: rest =>
      (rest.filter (fun t => t.1 < s.2 && s.2 < t.2)).map (fun t => (s, t))
        ++ collectOverlaps rest

def overlappingSpanPairs (spans : List Span) : List (Span × Span) :=
  collectOverlaps (sortBy sortKeyLe spans)

/-- Source method check_if_overlap: collects all partially overlapping pairs
and fails the whole parse when any exist. -/
def checkIfOverlap (st : ParserState) : PResult ParserState :=
  if overlappingSpanPairs (spanKeys st) == [] then .ok st
  else .err .overlappingSpans

/-- One outer step of analyse_containing_labels: append the label of the
normal span span0 to the containing_labels of every span containing it. -/
def markContaining (sp0 : Span) (l0 : Nat) (d : List (Span × TexSpan)) :
    List (Span × TexSpan) :=
  d.map (fun e =>
    if spanContains e.1 sp0 then
      (e.1, { e.2 with containingLabels := e.2.containingLabels ++ [l0] })
    else e)

/-- Source method analyse_containing_labels. -/
def analyseContainingLabels (st : ParserState) : ParserState :=
  let normals := st.dict.filterMap
    (fun e => if e.2.scriptType == 0 then some (e.1, e.2.label) else none)
  { st with dict := normals.foldl (fun d p => markContaining p.1 p.2 d) st.dict }

/-- Modelled from the spec: remove_list_redundancies lives outside the embedded
source file; the spec describes the lists as first-occurrence-deduplicated. -/
def dedupKeepFirst [DecidableEq α] (l : List α) : List α :=
  l.foldl (fun acc x => if x ∈ acc then acc else acc ++ [x]) []

def initState (tex : List Char) : ParserState := ⟨tex, [], [], 0⟩

/-- Source constructor _TexParser.__init__: brace matching, the whole-string
seed span, double braces, scripts, additional substrings, the overlap check,
containing-label analysis, and deduplication of the specified substrings. -/
def parseTex (tex : List Char) (additional : List (List Char)) : PResult ParserState :=
  match getBraceIndexPairs tex with
  | .err e => .err e
  | .ok braces =>
      let st0 := addTexSpan (initState tex) (0, tex.length) 0 0
      let st1 := breakUpByDoubleBraces braces st0
      match breakUpByScriptsAux braces (scriptScan tex) st1 with
      | .err e => .err e
      | .ok st2 =>
          let st3 := breakUpByAdditionalSubstrings st2 additional
          match checkIfOverlap st3 with
          | .err e => .err e
          | .ok st4 =>
              let st5 := analyseContainingLabels st4
              .ok { st5 with specified := dedupKeepFirst st5.specified }

/-- Errors of the caller-facing query methods.  noSpanCoverage models the
ValueError of get_part_by_custom_span_tuple, indexOutOfRange the Python
IndexError from indexing the parts of get_parts_by_tex. -/
inductive QueryError where
  | noSpanCoverage
  | indexOutOfRange
deriving DecidableEq, Repr

inductive QResult (α : Type) where
  | ok (val : α)
  | err (e : QueryError)
deriving DecidableEq, Repr

def firstSome : List α → (α → Option β) → Option β
  | [], _ => none
  | x :: xs, f =>
      match f x with
      | some r => some r
      | none => firstSome xs f

/-- Source method find_span_components_of_custom_span: among registered spans
starting at the current begin with end at most the target end, try the ends in
descending order, recursing on the rest of the range and backtracking on a
dead end.  Fuel-based recursion; every registered span of a parse is nonempty,
so fuel end minus begin covers the whole search depth. -/
def findAux (ks : List Span) : Nat → Nat → Nat → List Span → Option (List Span)
  | 0, b, e, acc => if b == e then some acc else none
  | fuel + 1, b, e, acc =>
      if b == e then some acc
      else
        let choices :=
          sortBy (fun x y => y ≤ x)
            ((ks.filter (fun s => s.1 == b && s.2 ≤ e)).map (·.2))
        firstSome choices (fun c => findAux ks fuel c e (acc ++ [(b, c)]))

def findSpanComponentsOfCustomSpan (st : ParserState) (sp : Span) :
    Option (List Span) :=
  findAux (spanKeys st) (sp.2 - sp.1) sp.1 sp.2 []

/-- Source method get_part_by_custom_span_tuple, at span level: the component
spans of the decomposition, or the coverage error. -/
def getPartByCustomSpanTuple (st : ParserState) (sp : Span) : QResult (List Span) :=
  match findSpanComponentsOfCustomSpan st sp with
  | none => .err .noSpanCoverage
  | some comps => .ok comps

/-- The list comprehension of get_parts_by_tex: resolve every occurrence,
propagating the first error. -/
def collectParts (st : ParserState) : List Span → QResult (List (List Span))
  | [] => .ok []
  | occ :: rest =>
      match getPartByCustomSpanTuple st occ with
      | .err e => .err e
      | .ok p =>
          match collectParts st rest with
          | .err e => .err e
          | .ok ps => .ok (p :: ps)

/-- Source method get_parts_by_tex. -/
def getPartsByTex (st : ParserState) (pat : List Char) : QResult (List (List Span)) :=
  collectParts st (occurrences st.texString pat)

/-- Source method get_part_by_tex: index into the list of parts. -/
def getPartByTex (st : ParserState) (pat : List Char) (i : Nat) : QResult (List Span) :=
  match getPartsByTex st pat with
  | .err e => .err e
  | .ok parts =>
      match parts.get? i with
      | some p => .ok p
      | none => .err .indexOutOfRange

/-- Source method get_additional_substrings_to_break_up: deduplicated color-map
keys and isolated strings, with the empty string removed. -/
def getAdditionalSubstringsToBreakUp (tcmKeys isolate : List (List Char)) :
    List (List Char) :=
  (dedupKeepFirst (tcmKeys ++ isolate)).erase []

/-- The parser exactly as MTex.generate_mobject invokes it. -/
def mtexParse (tex : List Char) (tcmKeys isolate : List (List Char)) :
    PResult ParserState :=
  parseTex tex (getAdditionalSubstringsToBreakUp tcmKeys isolate)

/-- Source method get_all_isolated_substrings. -/
def getAllIsolatedSubstrings (st : ParserState) : List (List Char) :=
  dedupKeepFirst (st.dict.map (fun e => sliceOf st.texString e.1))

/-- Source method group_submobjects: pack together adjacent glyphs carrying the
same label; each resulting group carries the label of its first glyph.  The
result is the list of group labels in order. -/
def groupSubmobjects (glyphs : List Nat) : List Nat :=
  let step := fun (acc : List Nat × Option Nat × Nat) g =>
    let (out, run, cur) := acc
    if g == cur then (out, some (run.getD g), cur)
    else (out ++ run.toList, some g, g)
  let fin := glyphs.foldl step ([], none, 0)
  fin.1 ++ fin.2.1.toList

def texSpanLookup (st : ParserState) (sp : Span) : Option TexSpan :=
  (st.dict.find? (fun e => e.1 == sp)).map (·.2)

/-- The label set of get_part_by_span_tuples: union of the containing_labels
of the given spans. -/
def partLabelsOfSpans (st : ParserState) (sps : List Span) : List Nat :=
  (sps.map (fun sp => ((texSpanLookup st sp).map (·.containingLabels)).getD [])).flatten

/-- indices_of_part: positions of the groups whose label is in the set. -/
def indicesOfLabels (labels : List Nat) (submobLabels : List Nat) : List Nat :=
  (List.range submobLabels.length).filter
    (fun i => labels.contains (submobLabels.getD i 0))

/-- range_of_part: from the first matching group index to one past the last;
none models the ValueError when the part is empty. -/
def rangeOfPartLabels (labels : List Nat) (submobLabels : List Nat) :
    Option (Nat × Nat) :=
  let idx := indicesOfLabels labels submobLabels
  match idx.head?, idx.getLast? with
  | some a, some b => some (a, b + 1)
  | _, _ => none

/-- Lexicographic order on the (index, span) items of sort_scripts_in_tex_order. -/
def scriptIndexSpanLe (a b : Nat × Span) : Bool :=
  a.1 < b.1 ||
    (a.1 == b.1 &&
      (a.2.1 < b.2.1 || (a.2.1 == b.2.1 && a.2.2 ≤ b.2.2)))

/-- Sort key of the switch range pairs: ascending range stop, descending start. -/
def switchPairLe (a b : (Nat × Nat) × (Nat × Nat)) : Bool :=
  a.1.2 < b.1.2 || (a.1.2 == b.1.2 && b.1.1 ≤ a.1.1)

/-- The five-slice index permutation applied for one switch range pair. -/
def applySwitch (ind : List Nat) (r0 r1 : Nat × Nat) : List Nat :=
  ind.take r1.1
    ++ ((ind.drop r0.1).take (r0.2 - r0.1))
    ++ ((ind.drop r1.2).take (r0.1 - r1.2))
    ++ ((ind.drop r1.1).take (r1.2 - r1.1))
    ++ ind.drop r0.2

/-- Source method sort_scripts_in_tex_order, acting on the list of group
labels: find boundary-sharing subscript and superscript span pairs, compute the
group-index range of each, and apply the switch permutations.  none models the
ValueError when a script span has no matching groups. -/
def sortScriptsInTexOrder (st : ParserState) (submobLabels : List Nat) :
    Option (List Nat) :=
  let scriptEntries := st.dict.filter (fun e => !(e.2.scriptType == 0))
  let indexAndSpanList :=
    sortBy scriptIndexSpanLe
      ((scriptEntries.map (fun e => [(e.1.1, e.1), (e.1.2, e.1)])).flatten)
  let candidates := (neighbouringPairs indexAndSpanList).filterMap (fun pc =>
    if pc.1.1 == pc.2.1
        && (((texSpanLookup st pc.1.2).map (·.scriptType)).getD 0 == 1)
        && (((texSpanLookup st pc.2.2).map (·.scriptType)).getD 0 == 2) then
      some (pc.1.2, pc.2.2)
    else none)
  match candidates.mapM (fun sps =>
      match rangeOfPartLabels (partLabelsOfSpans st [sps.1]) submobLabels,
            rangeOfPartLabels (partLabelsOfSpans st [sps.2]) submobLabels with
      | some r0, some r1 => some (r0, r1)
      | _, _ => none) with
  | none => none
  | some switchRangePairs =>
      let sorted := sortBy switchPairLe switchRangePairs
      let ind := sorted.foldl (fun ind pr => applySwitch ind pr.1 pr.2)
        (List.range submobLabels.length)
      some (ind.map (fun i => submobLabels.getD i 0))

def xabChars : List Char := ['x', '_', 'a', '^', 'b']

/-- Modelled from the spec: the Renderer (outside the embedded source file)
emits for x_a^b the base glyph followed by the superscript content glyphs and
then the subscript content glyphs, and each glyph exposes the label of its
enclosing colored leaf span (the uncolored base inherits label 0).  Here label
1 is the subscript content a and label 2 the superscript content b. -/
def xabGlyphLabels : List Nat := [0, 2, 1]

/-- Grouping followed by script reordering for the source x_a^b. -/
def reconcileXab : Option (List Nat) :=
  match parseTex xabChars [] with
  | .ok st => sortScriptsInTexOrder st (groupSubmobjects xabGlyphLabels)
  | .err _ => none

/-- Source static method label_to_color_tuple: two base-256 divisions of the
label itself (no offset appears in the source). -/
def labelToColorTuple (rgb : Nat) : Nat × Nat × Nat :=
  (rgb / 256 / 256, rgb / 256 % 256, rgb % 256)

def hexDigitChar (n : Nat) : Char :=
  if n < 10 then Char.ofNat (48 + n) else Char.ofNat (87 + n)

def byteToHex (n : Nat) : List Char := [hexDigitChar (n / 16), hexDigitChar (n % 16)]

/-- Modelled from the spec: the Renderer serializes a fill color as a hash sign
followed by six hexadecimal digits. -/
def colorTupleToStr (t : Nat × Nat × Nat) : List Char :=
  '#' :: (byteToHex t.1 ++ byteToHex t.2.1 ++ byteToHex t.2.2)

def hexVal (c : Char) : Nat :=
  if 48 ≤ c.toNat && c.toNat ≤ 57 then c.toNat - 48
  else if 97 ≤ c.toNat && c.toNat ≤ 102 then c.toNat - 87
  else if 65 ≤ c.toNat && c.toNat ≤ 70 then c.toNat - 55
  else 0

/-- Source static method color_str_to_label: double a three-digit form, parse
the hex digits, and subtract one. -/
def colorStrToLabel (s : List Char) : Int :=
  let s6 :=
    if s.length == 4 then '#' :: ((s.drop 1).map (fun c => [c, c])).flatten
    else s
  (((s6.drop 1).foldl (fun acc c => acc * 16 + hexVal c) 0 : Nat) : Int) - 1

/-! Concrete inputs used by the closed theorems, written as character lists. -/

def aChars : List Char := ['a']

def abChars : List Char := ['a', 'b']

def bPat : List Char := ['b']

def xaChars : List Char := ['x', '_', 'a']

def dbChars : List Char := ['\x7b', '\x7b', 'a', '\x7d', '\x7d', 'b']

def aCloseChars : List Char := ['a', '\x7d', 'b']

def aOpenChars : List Char := ['a', '\x7b', 'b']

def aBracedChars : List Char := ['a', '\x7b', 'b', '\x7d']

/-- The labels the claim of containment says a span should carry: labels of
all spans properly (strictly) containing it. -/
def specProperContainingLabels (st : ParserState) (sp : Span) : List Nat :=
  st.dict.filterMap (fun e =>
    if !(e.1 == sp) && spanContains e.1 sp then some e.2.label else none)

def c2Actual : Option TexSpan :=
  match parseTex dbChars [] with
  | .ok st => texSpanLookup st (0, 5)
  | .err _ => none

def c2Claimed : Option (List Nat) :=
  match parseTex dbChars [] with
  | .ok st => some (specProperContainingLabels st (0, 5))
  | .err _ => none

def c3Keys : Option (List Span) :=
  match parseTex xaChars [xaChars] with
  | .ok st => some (spanKeys st)
  | .err _ => none

def c3ScriptSpan : Option TexSpan :=
  match parseTex xaChars [xaChars] with
  | .ok st => texSpanLookup st (1, 3)
  | .err _ => none

def c8Query : Option (QResult (List Span)) :=
  match parseTex abChars [] with
  | .ok st => some (getPartByTex st bPat 0)
  | .err _ => none

def c8Occurrences : Option (List Span) :=
  match parseTex abChars [] with
  | .ok st => some (occurrences st.texString bPat)
  | .err _ => none

/-! The overlap validator: the check succeeds exactly on laminar families and
collects every partially overlapping pair. -/

/-- Partial overlap in the sense of the spec: the first span starts first and
the two ranges cross. -/
def partialOverlap (a b : Span) : Prop :=
  a.1 < b.1 ∧ b.1 < a.2 ∧ a.2 < b.2

/-- The laminarity disjunction of the claim: disjoint, or one range contains
the other entirely. -/
def laminarPair (a b : Span) : Prop :=
  a.2 ≤ b.1 ∨ b.2 ≤ a.1 ∨ spanContains a b = true ∨ spanContains b a = true

def xabState : ParserState :=
  ⟨xabChars,
    [((0, 5), ⟨0, 0, [0, 1, 2]⟩), ((2, 3), ⟨0, 1, [1]⟩), ((1, 3), ⟨1, 1, [1]⟩),
     ((4, 5), ⟨0, 2, [2]⟩), ((3, 5), ⟨2, 2, [2]⟩)],
    [], 3⟩

/-! Label assignment: normal-span labels of a successful parse are the range
zero to N-1 in registry order, the whole-string seed comes first with label
zero, and re-adding an existing range is a strict no-op. -/

/-- The labels of the normal spans of a registry, in insertion order. -/
def normalLabels (d : List (Span × TexSpan)) : List Nat :=
  d.filterMap (fun e => if e.2.scriptType == 0 then some e.2.label else none)

/-- Projection of a registry entry that forgets the mutable containing-labels
field. -/
def entrySkeleton (e : Span × TexSpan) : Span × Nat × Nat :=
  (e.1, e.2.scriptType, e.2.label)

/-- Invariant threaded through the parsing phases: the normal labels read the
range of current_label, and the head of the registry is the whole-string seed
span with script type 0 and label 0. -/
def seedInv (tex : List Char) (st : ParserState) : Prop :=
  normalLabels st.dict = List.range st.currentLabel ∧
  (st.dict.head?).map entrySkeleton = some ((0, tex.length), 0, 0)

/-! Containing labels: what analyse_containing_labels actually computes on
every registry entry of a successful parse. -/

/-- What the source computes: the labels of the normal spans contained
(non-strictly) in the given span, in registry order. -/
def containedNormalLabels (st : ParserState) (sp : Span) : List Nat :=
  st.dict.filterMap (fun x =>
    if x.2.scriptType == 0 && spanContains sp x.1 then some x.2.label else none)

/-- The (span, label) pairs of the normal entries, in registry order: the
outer loop of analyse_containing_labels. -/
def normalSpanLabels (d : List (Span × TexSpan)) : List (Span × Nat) :=
  d.filterMap
    (fun x => if x.2.scriptType == 0 then some (x.1, x.2.label) else none)

/-- All containing-label lists of the registry are empty: the state of every
phase before the analysis runs. -/
def allEmptyCL (st : ParserState) : Prop :=
  ∀ e ∈ st.dict, e.2.containingLabels = []

/-! The additional-substring phase, described declaratively: the narrowing
walk triggers on occurrence ends that coincide with the begin of a
script-wrapper span, and follows script ends backwards. -/

/-- The script-wrapper spans of the registry, in insertion order. -/
def scriptSpansOf (st : ParserState) : List Span :=
  st.dict.filterMap (fun e => if e.2.scriptType == 0 then none else some e.1)

def scriptSpanEndingAt (scripts : List Span) (e : Nat) : Option Span :=
  scripts.find? (fun sp => sp.2 == e)

/-- The walk of the amended claim: while the current end is the end of some
script-wrapper span, replace it by that span's begin. -/
def specWalk (scripts : List Span) : Nat → Nat → Nat
  | 0, e => e
  | f + 1, e =>
      match scriptSpanEndingAt scripts e with
      | none => e
      | some sp => specWalk scripts f sp.1

/-- One occurrence, processed as the amended claim describes: if its end
coincides with the begin of a script-wrapper span, walk the end backwards
through script endings; discard when the range became empty, otherwise keep
the narrowed range.  Other occurrences pass unchanged. -/
def specNarrowOcc (scripts : List Span) (occ : Span) : Option Span :=
  if scripts.any (fun sp => sp.1 == occ.2) then
    let e2 := specWalk scripts (occ.2 + 1) occ.2
    if e2 ≤ occ.1 then none else some (occ.1, e2)
  else some occ

/-- The whole phase in declarative form: add and record every kept range. -/
def specProcessOccs (scripts : List Span) (occs : List Span)
    (st : ParserState) : ParserState :=
  occs.foldl (fun s occ =>
    match specNarrowOcc scripts occ with
    | none => s
    | some sp => addSpecifiedSubstring (addTexSpan s sp 0 0) sp) st

/-! The backtracking span-coverage query: it fails exactly when no sequence of
registered spans tiles the requested range. -/

/-- A list of registered spans tiling the half-open range from b to e:
consecutive, starting at b, ending at e. -/
def tiles (ks : List Span) : List Span → Nat → Nat → Prop
  | [], b, e => b = e
  | s :: rest, b, e => s ∈ ks ∧ s.1 = b ∧ tiles ks rest s.2 e

def abState : ParserState := ⟨abChars, [((0, 2), ⟨0, 0, [0]⟩)], [], 1⟩

/-- C1: the source encoder label_to_color_tuple maps label 0 to pure black,
and decoding the color a label encodes to yields the label minus one, not the
label: the round trip claimed by the spec fails at label 0 (and everywhere),
because the encoder omits the plus-one offset the decoder undoes. -/
theorem c1_color_roundtrip_bug :
    labelToColorTuple 0 = (0, 0, 0) ∧
    colorStrToLabel (colorTupleToStr (labelToColorTuple 0)) = -1 ∧
    colorStrToLabel (colorTupleToStr (labelToColorTuple 259)) = 258 := by
  decide

/-- C2 counterexample: for the parsed source of two nested spans, the leaf
span from 0 to 5 carries containingLabels [1], its own label included, while
the labels of the spans properly containing it are [0]: the claim fails. -/
theorem c2_counterexample :
    c2Actual = some ⟨0, 1, [1]⟩ ∧
    c2Claimed = some [0] ∧
    ([1] : List Nat) ≠ [0] ∧
    (1 : Nat) ∈ [1] := by
  decide

/-- C3 counterexample: in the source x_a with the whole string requested as an
isolated substring, the occurrence from 0 to 3 ends exactly at the end of the
script-wrapper span from 1 to 3, yet no narrowing happens: the registry keeps
the occurrence unchanged and the narrowed span from 0 to 1 the claim requires
is never added. -/
theorem c3_counterexample :
    c3Keys = some [(0, 3), (2, 3), (1, 3)] ∧
    c3ScriptSpan = some ⟨1, 1, [1]⟩ ∧
    ((0, 1) : Span) ∉ [((0, 3) : Span), (2, 3), (1, 3)] := by
  decide

/-- C4 counterexample: reconciling x_a^b from the rendered glyph order leaves
the groups in the order base, subscript content a (label 1), superscript
content b (label 2): the group of the superscript does not precede the group
of the subscript in the final ordering, contrary to the claim. -/
theorem c4_counterexample :
    reconcileXab = some [0, 1, 2] ∧
    ¬ (([0, 1, 2] : List Nat).indexOf 2 < ([0, 1, 2] : List Nat).indexOf 1) := by
  decide

/-- C4 amended: the script-reordering pass restores source order: the renderer
emitted the superscript group before the subscript group, and after
reconciliation the group of the subscript content a precedes the group of the
superscript content b, matching the order the source text wrote them. -/
theorem c4_script_reorder_restores_source_order :
    groupSubmobjects xabGlyphLabels = [0, 2, 1] ∧
    ([0, 2, 1] : List Nat).indexOf 2 < ([0, 2, 1] : List Nat).indexOf 1 ∧
    reconcileXab = some [0, 1, 2] ∧
    ([0, 1, 2] : List Nat).indexOf 1 < ([0, 1, 2] : List Nat).indexOf 2 := by
  decide

/-- C8 counterexample: in the parsed source ab the literal b is present with
one occurrence and index 0 is in range, yet the query fails with the coverage
error rather than returning a group or the not-found error: failure is not
restricted to an absent literal or an out-of-range index. -/
theorem c8_counterexample :
    c8Occurrences = some [(1, 2)] ∧
    (0 : Nat) < 1 ∧
    c8Query = some (.err .noSpanCoverage) ∧
    c8Query ≠ some (.err .indexOutOfRange) := by
  decide

/-! Sorting lemmas for the sortBy model of the Python sorted builtin. -/

theorem mem_insertSortedBy {le : α → α → Bool} {a x : α} :
    ∀ {l : List α}, x ∈ insertSortedBy le a l ↔ x = a ∨ x ∈ l
  | [] => by simp [insertSortedBy]
  | b :: l => by
      simp only [insertSortedBy]
      split
      · simp [List.mem_cons]
      · rw [List.mem_cons, mem_insertSortedBy (l := l), List.mem_cons]
        tauto

theorem insertSortedBy_perm (le : α → α → Bool) (a : α) :
    ∀ (l : List α), List.Perm (insertSortedBy le a l) (a :: l)
  | [] => by simp [insertSortedBy]
  | b :: l => by
      simp only [insertSortedBy]
      split
      · exact List.Perm.refl _
      · exact ((insertSortedBy_perm le a l).cons b).trans (List.Perm.swap a b l)

theorem sortBy_perm (le : α → α → Bool) : ∀ (l : List α), List.Perm (sortBy le l) l
  | [] => List.Perm.refl _
  | a :: l => (insertSortedBy_perm le a (sortBy le l)).trans ((sortBy_perm le l).cons a)

theorem mem_sortBy {le : α → α → Bool} {x : α} {l : List α} :
    x ∈ sortBy le l ↔ x ∈ l :=
  (sortBy_perm le l).mem_iff

theorem pairwise_insertSortedBy {le : α → α → Bool}
    (htrans : ∀ a b c, le a b = true → le b c = true → le a c = true)
    (htotal : ∀ a b, le a b = true ∨ le b a = true) (a : α) :
    ∀ {l : List α}, l.Pairwise (fun x y => le x y = true) →
      (insertSortedBy le a l).Pairwise (fun x y => le x y = true)
  | [], _ => by simp [insertSortedBy]
  | b :: l, h => by
      rcases List.pairwise_cons.mp h with ⟨hb, hl⟩
      simp only [insertSortedBy]
      split
      · rename_i hab
        refine List.pairwise_cons.mpr ⟨?_, h⟩
        intro x hx
        rcases List.mem_cons.mp hx with rfl | hx
        · exact hab
        · exact htrans a b x hab (hb x hx)
      · rename_i hab
        refine List.pairwise_cons.mpr ⟨?_, pairwise_insertSortedBy htrans htotal a hl⟩
        intro x hx
        rcases mem_insertSortedBy.mp hx with rfl | hx
        · rcases htotal x b with h1 | h1
          · exact absurd h1 hab
          · exact h1
        · exact hb x hx

theorem pairwise_sortBy {le : α → α → Bool}
    (htrans : ∀ a b c, le a b = true → le b c = true → le a c = true)
    (htotal : ∀ a b, le a b = true ∨ le b a = true) :
    ∀ (l : List α), (sortBy le l).Pairwise (fun x y => le x y = true)
  | [] => List.Pairwise.nil
  | a :: l => pairwise_insertSortedBy htrans htotal a (pairwise_sortBy htrans htotal l)

theorem laminarPair_refl (a : Span) : laminarPair a a := by
  simp [laminarPair, spanContains]

theorem laminarPair_symm {a b : Span} (h : laminarPair a b) : laminarPair b a := by
  unfold laminarPair at h ⊢
  tauto

theorem sortKeyLe_trans :
    ∀ a b c : Span, sortKeyLe a b = true → sortKeyLe b c = true →
      sortKeyLe a c = true := by
  intro a b c hab hbc
  simp only [sortKeyLe, Bool.or_eq_true, Bool.and_eq_true, decide_eq_true_eq,
    beq_iff_eq] at *
  omega

theorem sortKeyLe_total : ∀ a b : Span, sortKeyLe a b = true ∨ sortKeyLe b a = true := by
  intro a b
  simp only [sortKeyLe, Bool.or_eq_true, Bool.and_eq_true, decide_eq_true_eq,
    beq_iff_eq]
  omega

theorem collectOverlaps_eq_nil_iff :
    ∀ l : List Span, collectOverlaps l = [] ↔
      l.Pairwise (fun s t => ¬ (t.1 < s.2 ∧ s.2 < t.2))
  | [] => by simp [collectOverlaps]
  | s :: rest => by
      simp only [collectOverlaps, List.append_eq_nil, List.map_eq_nil_iff,
        List.filter_eq_nil_iff, List.pairwise_cons, collectOverlaps_eq_nil_iff rest,
        Bool.and_eq_true, decide_eq_true_eq]

theorem laminar_of_sorted_nooverlap {a b : Span} (hle : sortKeyLe a b = true)
    (hno : ¬ (b.1 < a.2 ∧ a.2 < b.2)) : laminarPair a b := by
  simp only [sortKeyLe, Bool.or_eq_true, Bool.and_eq_true, decide_eq_true_eq,
    beq_iff_eq] at hle
  simp only [laminarPair, spanContains, Bool.and_eq_true, decide_eq_true_eq]
  omega

theorem nooverlap_of_sorted_laminar {a b : Span} (hle : sortKeyLe a b = true)
    (hlam : laminarPair a b) : ¬ (b.1 < a.2 ∧ a.2 < b.2) := by
  simp only [sortKeyLe, Bool.or_eq_true, Bool.and_eq_true, decide_eq_true_eq,
    beq_iff_eq] at hle
  simp only [laminarPair, spanContains, Bool.and_eq_true, decide_eq_true_eq] at hlam
  omega

theorem overlappingSpanPairs_eq_nil_iff (spans : List Span) :
    overlappingSpanPairs spans = [] ↔
      ∀ a ∈ spans, ∀ b ∈ spans, laminarPair a b := by
  rw [overlappingSpanPairs, collectOverlaps_eq_nil_iff]
  constructor
  · intro h a ha b hb
    by_cases hab : a = b
    · subst hab; exact laminarPair_refl a
    · have hsorted := pairwise_sortBy sortKeyLe_trans sortKeyLe_total spans
      have hlam : (sortBy sortKeyLe spans).Pairwise laminarPair :=
        (hsorted.and h).imp (fun hp => laminar_of_sorted_nooverlap hp.1 hp.2)
      have hsym : Symmetric laminarPair := fun x y hxy => laminarPair_symm hxy
      exact hlam.forall hsym (mem_sortBy.mpr ha) (mem_sortBy.mpr hb) hab
  · intro h
    have hsorted := pairwise_sortBy sortKeyLe_trans sortKeyLe_total spans
    refine hsorted.imp_of_mem ?_
    intro a b ha hb hle
    exact nooverlap_of_sorted_laminar hle
      (h a (mem_sortBy.mp ha) b (mem_sortBy.mp hb))

theorem mem_collectOverlaps_of_partial :
    ∀ (l : List Span), l.Pairwise (fun x y => sortKeyLe x y = true) →
      ∀ {a b : Span}, a ∈ l → b ∈ l → partialOverlap a b →
        (a, b) ∈ collectOverlaps l
  | [], _, _, _, ha, _, _ => absurd ha (List.not_mem_nil _)
  | c :: rest, h, a, b, ha, hb, hab => by
      rcases List.pairwise_cons.mp h with ⟨hc, hrest⟩
      by_cases hac : a = c
      · subst hac
        have hbrest : b ∈ rest := by
          rcases List.mem_cons.mp hb with hbc | hbr
          · exfalso
            rw [hbc] at hab
            exact lt_irrefl _ hab.1
          · exact hbr
        simp only [collectOverlaps, List.mem_append, List.mem_map]
        left
        refine ⟨b, List.mem_filter.mpr ⟨hbrest, ?_⟩, rfl⟩
        simp only [Bool.and_eq_true, decide_eq_true_eq]
        exact ⟨hab.2.1, hab.2.2⟩
      · have harest : a ∈ rest := by
          rcases List.mem_cons.mp ha with h1 | h1
          · exact absurd h1 hac
          · exact h1
        rcases List.mem_cons.mp hb with hbc | hbrest
        · have hle := hc a harest
          rw [← hbc] at hle
          simp only [sortKeyLe, Bool.or_eq_true, Bool.and_eq_true,
            decide_eq_true_eq, beq_iff_eq] at hle
          rcases hab with ⟨h1, _, _⟩
          omega
        · simp only [collectOverlaps, List.mem_append]
          right
          exact mem_collectOverlaps_of_partial rest hrest harest hbrest hab

theorem overlappingSpanPairs_complete {spans : List Span} {a b : Span}
    (ha : a ∈ spans) (hb : b ∈ spans) (hab : partialOverlap a b) :
    (a, b) ∈ overlappingSpanPairs spans :=
  mem_collectOverlaps_of_partial (sortBy sortKeyLe spans)
    (pairwise_sortBy sortKeyLe_trans sortKeyLe_total spans)
    (mem_sortBy.mpr ha) (mem_sortBy.mpr hb) hab

theorem checkIfOverlap_ok {st st' : ParserState} (h : checkIfOverlap st = .ok st') :
    st' = st ∧ overlappingSpanPairs (spanKeys st) = [] := by
  unfold checkIfOverlap at h
  split at h
  · rename_i hcond
    cases h
    exact ⟨rfl, by simpa using hcond⟩
  · cases h

theorem markContaining_keys (sp0 : Span) (l0 : Nat) (d : List (Span × TexSpan)) :
    (markContaining sp0 l0 d).map (·.1) = d.map (·.1) := by
  unfold markContaining
  rw [List.map_map]
  apply List.map_congr_left
  intro e _
  simp only [Function.comp_apply]
  split <;> rfl

theorem foldl_markContaining_keys :
    ∀ (L : List (Span × Nat)) (d : List (Span × TexSpan)),
      (L.foldl (fun d p => markContaining p.1 p.2 d) d).map (·.1) = d.map (·.1)
  | [], _ => rfl
  | p :: L, d => by
      rw [List.foldl_cons, foldl_markContaining_keys L, markContaining_keys]

theorem analyseContainingLabels_keys (st : ParserState) :
    spanKeys (analyseContainingLabels st) = spanKeys st := by
  unfold analyseContainingLabels spanKeys
  exact foldl_markContaining_keys _ _

theorem parseTex_ok_overlap_nil {tex : List Char} {add : List (List Char)}
    {st : ParserState} (h : parseTex tex add = .ok st) :
    overlappingSpanPairs (spanKeys st) = [] := by
  unfold parseTex at h
  split at h
  next => cases h
  next braces hb =>
    dsimp only at h
    split at h
    next => cases h
    next st2 hs =>
      split at h
      next => cases h
      next st4 hc =>
        cases h
        rcases checkIfOverlap_ok hc with ⟨rfl, hnil⟩
        show overlappingSpanPairs
          (spanKeys (analyseContainingLabels (breakUpByAdditionalSubstrings st2 add))) = []
        rw [analyseContainingLabels_keys]
        exact hnil

/-- C5: whenever the parser completes without error every pair of registered
spans is disjoint or nested; every partially overlapping pair of a span list
is collected by the overlap check, and a nonempty collection fails the
operation. -/
theorem c5_overlap_validator :
    (∀ (tex : List Char) (add : List (List Char)) (st : ParserState),
        parseTex tex add = .ok st →
        ∀ a ∈ spanKeys st, ∀ b ∈ spanKeys st, laminarPair a b) ∧
    (∀ (spans : List Span) (a b : Span), a ∈ spans → b ∈ spans →
        partialOverlap a b → (a, b) ∈ overlappingSpanPairs spans) ∧
    (∀ st : ParserState, overlappingSpanPairs (spanKeys st) ≠ [] →
        checkIfOverlap st = .err .overlappingSpans) := by
  refine ⟨?_, ?_, ?_⟩
  · intro tex add st h a ha b hb
    exact (overlappingSpanPairs_eq_nil_iff (spanKeys st)).mp
      (parseTex_ok_overlap_nil h) a ha b hb
  · intro spans a b ha hb hab
    exact overlappingSpanPairs_complete ha hb hab
  · intro st h
    unfold checkIfOverlap
    split
    · rename_i hcond
      exact absurd (by simpa using hcond) h
    · rfl

/-- Closed instance of c5_overlap_validator at the parsed source x_a^b and at a
concrete partially overlapping pair. -/
theorem c5_overlap_validator_witness :
    laminarPair (0, 5) (2, 3) ∧
    ((0, 2), (1, 3)) ∈ overlappingSpanPairs [(0, 2), (1, 3)] :=
  ⟨c5_overlap_validator.1 xabChars [] xabState (by decide) (0, 5) (by decide)
      (2, 3) (by decide),
    c5_overlap_validator.2.1 [(0, 2), (1, 3)] (0, 2) (1, 3) (by decide) (by decide)
      ⟨by decide, by decide, by decide⟩⟩

theorem addTexSpan_mem_noop {st : ParserState} {sp : Span} (t l : Nat)
    (h : sp ∈ spanKeys st) : addTexSpan st sp t l = st := by
  unfold addTexSpan
  rw [if_pos]
  rcases List.mem_map.mp h with ⟨e, he, hfst⟩
  exact List.any_eq_true.mpr ⟨e, he, by simp [hfst]⟩

theorem head?_append_left {l l' : List α} (h : l ≠ []) :
    (l ++ l').head? = l.head? := by
  cases l with
  | nil => exact absurd rfl h
  | cons a t => rfl

theorem addTexSpan_seedInv {tex : List Char} {st : ParserState} (sp : Span)
    (t l : Nat) (h : seedInv tex st) : seedInv tex (addTexSpan st sp t l) := by
  rcases h with ⟨hlab, hhead⟩
  have hne : st.dict ≠ [] := by
    intro hd
    rw [hd] at hhead
    simp at hhead
  unfold addTexSpan
  split
  · exact ⟨hlab, hhead⟩
  split
  · unfold seedInv
    refine ⟨?_, ?_⟩
    · show normalLabels (st.dict ++ [(sp, ⟨0, st.currentLabel, []⟩)])
          = List.range (st.currentLabel + 1)
      rw [normalLabels, List.filterMap_append, List.range_succ, ← normalLabels,
        hlab]
      rfl
    · show ((st.dict ++ [(sp, (⟨0, st.currentLabel, []⟩ : TexSpan))]).head?).map
            entrySkeleton = some ((0, tex.length), 0, 0)
      rw [head?_append_left hne]
      exact hhead
  · rename_i htype
    unfold seedInv
    refine ⟨?_, ?_⟩
    · show normalLabels (st.dict ++ [(sp, ⟨t, l, []⟩)]) = List.range st.currentLabel
      rw [normalLabels, List.filterMap_append, ← normalLabels, hlab]
      have ht : t ≠ 0 := by simpa using htype
      simp [List.filterMap_cons, ht]
    · show ((st.dict ++ [(sp, (⟨t, l, []⟩ : TexSpan))]).head?).map
            entrySkeleton = some ((0, tex.length), 0, 0)
      rw [head?_append_left hne]
      exact hhead

theorem addSpecifiedSubstring_seedInv {tex : List Char} {st : ParserState}
    (sp : Span) (h : seedInv tex st) : seedInv tex (addSpecifiedSubstring st sp) := h

theorem doubleBraceAux_seedInv {tex : List Char} :
    ∀ (L : List (Span × Span)) (skip : Bool) (st : ParserState),
      seedInv tex st → seedInv tex (doubleBraceAux L skip st)
  | [], _, _, h => h
  | (prev, cur) :: rest, skip, st, h => by
      unfold doubleBraceAux
      split
      · exact doubleBraceAux_seedInv rest false st h
      split
      · exact doubleBraceAux_seedInv rest true _
          (addSpecifiedSubstring_seedInv cur (addTexSpan_seedInv cur 0 0 h))
      · exact doubleBraceAux_seedInv rest false st h

theorem breakUpByScriptsAux_seedInv {tex : List Char} {braces : List Span} :
    ∀ (ms : List (Nat × Nat × Nat)) (st st2 : ParserState),
      seedInv tex st → breakUpByScriptsAux braces ms st = .ok st2 →
      seedInv tex st2
  | [], st, st2, h, heq => by
      cases heq
      exact h
  | (tb, te, ty) :: rest, st, st2, h, heq => by
      unfold breakUpByScriptsAux at heq
      split at heq
      · cases heq
      · exact breakUpByScriptsAux_seedInv rest _ st2
          (addTexSpan_seedInv _ _ _ (addTexSpan_seedInv _ 0 0 h)) heq

theorem processAdditionalAux_seedInv {tex : List Char} {d : List (Nat × Nat)} :
    ∀ (occs : List Span) (st : ParserState),
      seedInv tex st → seedInv tex (processAdditionalAux d occs st)
  | [], _, h => h
  | (b, e) :: rest, st, h => by
      unfold processAdditionalAux
      split
      · dsimp only
        split
        · exact processAdditionalAux_seedInv rest st h
        · exact processAdditionalAux_seedInv rest _
            (addSpecifiedSubstring_seedInv _ (addTexSpan_seedInv _ 0 0 h))
      · exact processAdditionalAux_seedInv rest _
          (addSpecifiedSubstring_seedInv _ (addTexSpan_seedInv _ 0 0 h))

theorem breakUpByAdditionalSubstrings_seedInv {tex : List Char}
    {st : ParserState} (strings : List (List Char)) (h : seedInv tex st) :
    seedInv tex (breakUpByAdditionalSubstrings st strings) :=
  processAdditionalAux_seedInv _ st h

theorem markContaining_skeletons (sp0 : Span) (l0 : Nat)
    (d : List (Span × TexSpan)) :
    (markContaining sp0 l0 d).map entrySkeleton = d.map entrySkeleton := by
  unfold markContaining
  rw [List.map_map]
  apply List.map_congr_left
  intro e _
  simp only [Function.comp_apply]
  split <;> rfl

theorem foldl_markContaining_skeletons :
    ∀ (L : List (Span × Nat)) (d : List (Span × TexSpan)),
      (L.foldl (fun d p => markContaining p.1 p.2 d) d).map entrySkeleton
        = d.map entrySkeleton
  | [], _ => rfl
  | p :: L, d => by
      rw [List.foldl_cons, foldl_markContaining_skeletons L,
        markContaining_skeletons]

theorem normalLabels_eq_of_skeletons {d d' : List (Span × TexSpan)}
    (h : d.map entrySkeleton = d'.map entrySkeleton) :
    normalLabels d = normalLabels d' := by
  have : normalLabels d
      = (d.map entrySkeleton).filterMap
          (fun e => if e.2.1 == 0 then some e.2.2 else none) := by
    rw [List.filterMap_map]
    rfl
  rw [this, h, List.filterMap_map]
  rfl

theorem head_skeleton_eq_of_skeletons {d d' : List (Span × TexSpan)}
    (h : d.map entrySkeleton = d'.map entrySkeleton) :
    d.head?.map entrySkeleton = d'.head?.map entrySkeleton := by
  have h1 : (d.map entrySkeleton).head? = (d'.map entrySkeleton).head? := by
    rw [h]
  simpa [List.head?_map] using h1

theorem analyseContainingLabels_seedInv {tex : List Char} {st : ParserState}
    (h : seedInv tex st) : seedInv tex (analyseContainingLabels st) := by
  rcases h with ⟨hlab, hhead⟩
  have hsk : (analyseContainingLabels st).dict.map entrySkeleton
      = st.dict.map entrySkeleton := by
    unfold analyseContainingLabels
    exact foldl_markContaining_skeletons _ _
  constructor
  · rw [normalLabels_eq_of_skeletons hsk]
    exact hlab
  · rw [head_skeleton_eq_of_skeletons hsk]
    exact hhead

theorem parseTex_ok_seedInv {tex : List Char} {add : List (List Char)}
    {st : ParserState} (h : parseTex tex add = .ok st) : seedInv tex st := by
  unfold parseTex at h
  split at h
  next => cases h
  next braces hb =>
    dsimp only at h
    split at h
    next => cases h
    next st2 hs =>
      split at h
      next => cases h
      next st4 hc =>
        cases h
        rcases checkIfOverlap_ok hc with ⟨rfl, _⟩
        have h0 : seedInv tex (addTexSpan (initState tex) (0, tex.length) 0 0) := by
          refine ⟨?_, ?_⟩ <;> rfl
        have h1 := doubleBraceAux_seedInv (neighbouringPairs braces) false _ h0
        have h2 := breakUpByScriptsAux_seedInv (scriptScan tex) _ st2 h1 hs
        have h3 := breakUpByAdditionalSubstrings_seedInv add h2
        have h4 := analyseContainingLabels_seedInv h3
        exact h4

/-- C7: after every successful parse the normal-span labels, in registry
order, are exactly the range 0 to N-1 (contiguous, unique, in discovery
order), the head of the registry is the whole-string span with label 0 and
script type 0, and adding a range already present leaves the full parser state
unchanged. -/
theorem c7_label_assignment :
    (∀ (tex : List Char) (add : List (List Char)) (st : ParserState),
        parseTex tex add = .ok st →
        normalLabels st.dict = List.range st.currentLabel ∧
        (st.dict.head?).map entrySkeleton = some ((0, tex.length), 0, 0)) ∧
    (∀ (st : ParserState) (sp : Span) (t l : Nat), sp ∈ spanKeys st →
        addTexSpan st sp t l = st) := by
  constructor
  · intro tex add st h
    exact parseTex_ok_seedInv h
  · intro st sp t l h
    exact addTexSpan_mem_noop t l h

/-- Closed instance of c7_label_assignment at the parsed source x_a^b and a
concrete re-added span. -/
theorem c7_label_assignment_witness :
    (normalLabels xabState.dict = List.range xabState.currentLabel ∧
      (xabState.dict.head?).map entrySkeleton = some ((0, xabChars.length), 0, 0)) ∧
    addTexSpan xabState (2, 3) 2 7 = xabState :=
  ⟨c7_label_assignment.1 xabChars [] xabState (by decide),
    c7_label_assignment.2 xabState (2, 3) 2 7 (by decide)⟩

theorem addTexSpan_allEmptyCL {st : ParserState} (sp : Span) (t l : Nat)
    (h : allEmptyCL st) : allEmptyCL (addTexSpan st sp t l) := by
  unfold addTexSpan
  split
  · exact h
  split <;>
  · intro e he
    rcases List.mem_append.mp he with he | he
    · exact h e he
    · rcases List.mem_singleton.mp he with rfl
      rfl

theorem addSpecifiedSubstring_allEmptyCL {st : ParserState} (sp : Span)
    (h : allEmptyCL st) : allEmptyCL (addSpecifiedSubstring st sp) := h

theorem doubleBraceAux_allEmptyCL :
    ∀ (L : List (Span × Span)) (skip : Bool) (st : ParserState),
      allEmptyCL st → allEmptyCL (doubleBraceAux L skip st)
  | [], _, _, h => h
  | (prev, cur) :: rest, skip, st, h => by
      unfold doubleBraceAux
      split
      · exact doubleBraceAux_allEmptyCL rest false st h
      split
      · exact doubleBraceAux_allEmptyCL rest true _
          (addSpecifiedSubstring_allEmptyCL cur (addTexSpan_allEmptyCL cur 0 0 h))
      · exact doubleBraceAux_allEmptyCL rest false st h

theorem breakUpByScriptsAux_allEmptyCL {braces : List Span} :
    ∀ (ms : List (Nat × Nat × Nat)) (st st2 : ParserState),
      allEmptyCL st → breakUpByScriptsAux braces ms st = .ok st2 →
      allEmptyCL st2
  | [], st, st2, h, heq => by
      cases heq
      exact h
  | (tb, te, ty) :: rest, st, st2, h, heq => by
      unfold breakUpByScriptsAux at heq
      split at heq
      · cases heq
      · exact breakUpByScriptsAux_allEmptyCL rest _ st2
          (addTexSpan_allEmptyCL _ _ _ (addTexSpan_allEmptyCL _ 0 0 h)) heq

theorem processAdditionalAux_allEmptyCL {d : List (Nat × Nat)} :
    ∀ (occs : List Span) (st : ParserState),
      allEmptyCL st → allEmptyCL (processAdditionalAux d occs st)
  | [], _, h => h
  | (b, e) :: rest, st, h => by
      unfold processAdditionalAux
      split
      · dsimp only
        split
        · exact processAdditionalAux_allEmptyCL rest st h
        · exact processAdditionalAux_allEmptyCL rest _
            (addSpecifiedSubstring_allEmptyCL _ (addTexSpan_allEmptyCL _ 0 0 h))
      · exact processAdditionalAux_allEmptyCL rest _
          (addSpecifiedSubstring_allEmptyCL _ (addTexSpan_allEmptyCL _ 0 0 h))

theorem foldl_markContaining_getElem :
    ∀ (L : List (Span × Nat)) (d : List (Span × TexSpan)) (i : Nat),
      (L.foldl (fun d p => markContaining p.1 p.2 d) d)[i]? =
        (d[i]?).map (fun e =>
          (e.1, { e.2 with containingLabels :=
            e.2.containingLabels
              ++ (L.filter (fun p => spanContains e.1 p.1)).map (·.2) }))
  | [], d, i => by
      simp only [List.foldl_nil, List.filter_nil, List.map_nil,
        List.append_nil]
      cases hd : d[i]? with
      | none => rfl
      | some e => rfl
  | p :: L, d, i => by
      rw [List.foldl_cons, foldl_markContaining_getElem L]
      unfold markContaining
      rw [List.getElem?_map]
      cases hd : d[i]? with
      | none => rfl
      | some e =>
          simp only [Option.map_some]
          by_cases hc : spanContains e.1 p.1 = true
          · simp [hc, List.filter_cons, List.append_assoc]
          · rw [Bool.not_eq_true] at hc
            simp [hc, List.filter_cons]

theorem normalSpanLabels_eq_of_skeletons {d d' : List (Span × TexSpan)}
    (h : d.map entrySkeleton = d'.map entrySkeleton) :
    normalSpanLabels d = normalSpanLabels d' := by
  have hfac : ∀ (x : List (Span × TexSpan)), normalSpanLabels x
      = (x.map entrySkeleton).filterMap
          (fun s => if s.2.1 == 0 then some (s.1, s.2.2) else none) := by
    intro x
    rw [List.filterMap_map]
    rfl
  rw [hfac, hfac, h]

theorem containedNormalLabels_bridge :
    ∀ (d : List (Span × TexSpan)) (sp : Span),
      ((normalSpanLabels d).filter (fun p => spanContains sp p.1)).map (·.2)
        = d.filterMap (fun x =>
            if x.2.scriptType == 0 && spanContains sp x.1 then some x.2.label
            else none)
  | [], _ => rfl
  | x :: d, sp => by
      have ih := containedNormalLabels_bridge d sp
      cases hsc : (x.2.scriptType == 0) <;> cases hcont : spanContains sp x.1 <;>
        simp only [normalSpanLabels, List.filterMap_cons, hsc, hcont,
          Bool.false_and, Bool.true_and, if_true, if_false, Bool.false_eq_true,
          List.filter_cons, List.map_cons] at ih ⊢ <;>
        (try exact ih) <;>
        (try (simp only [beq_iff_eq, Bool.and_eq_true] at ih)) <;>
        simp [ih, hcont]

theorem analyseContainingLabels_entry_spec {st : ParserState}
    (hE : allEmptyCL st) :
    ∀ e ∈ (analyseContainingLabels st).dict,
      e.2.containingLabels =
        ((normalSpanLabels st.dict).filter
          (fun p => spanContains e.1 p.1)).map (·.2) := by
  intro e he
  rcases List.mem_iff_getElem?.mp he with ⟨i, hi⟩
  have hfold := foldl_markContaining_getElem
    (normalSpanLabels st.dict) st.dict i
  have hdict : (analyseContainingLabels st).dict
      = (normalSpanLabels st.dict).foldl
          (fun d p => markContaining p.1 p.2 d) st.dict := rfl
  rw [hdict, hfold] at hi
  cases hd : st.dict[i]? with
  | none =>
      rw [hd] at hi
      cases hi
  | some e0 =>
      rw [hd] at hi
      simp only [Option.map_some', Option.some.injEq] at hi
      have he0 : e0 ∈ st.dict := List.getElem?_mem hd
      have hcl : e0.2.containingLabels = [] := hE e0 he0
      rw [← hi]
      simp [hcl]

/-- C2 amended: after every successful parse, the containing-labels list of
every registry entry holds exactly the labels of the normal spans contained
(non-strictly) in that entry, in registry order; in particular a normal span
lists its own label. -/
theorem c2_contained_labels :
    ∀ (tex : List Char) (add : List (List Char)) (st : ParserState),
      parseTex tex add = .ok st →
      ∀ e ∈ st.dict, e.2.containingLabels = containedNormalLabels st e.1 := by
  intro tex add st h e he
  unfold parseTex at h
  split at h
  next => cases h
  next braces hb =>
    dsimp only at h
    split at h
    next => cases h
    next st2 hs =>
      split at h
      next => cases h
      next st4 hc =>
        cases h
        rcases checkIfOverlap_ok hc with ⟨rfl, _⟩
        have h0 : allEmptyCL (addTexSpan (initState tex) (0, tex.length) 0 0) := by
          intro x hx
          rcases List.mem_singleton.mp hx with rfl
          rfl
        have h1 := doubleBraceAux_allEmptyCL (neighbouringPairs braces) false _ h0
        have h2 := breakUpByScriptsAux_allEmptyCL (scriptScan tex) _ st2 h1 hs
        have h3 : allEmptyCL (breakUpByAdditionalSubstrings st2 add) :=
          processAdditionalAux_allEmptyCL _ _ h2
        set stB := breakUpByAdditionalSubstrings st2 add with hstB
        have he' : e ∈ (analyseContainingLabels stB).dict := he
        have hspec := analyseContainingLabels_entry_spec h3 e he'
        rw [hspec, containedNormalLabels_bridge]
        show stB.dict.filterMap _
            = (analyseContainingLabels stB).dict.filterMap _
        have hsk : (analyseContainingLabels stB).dict.map entrySkeleton
            = stB.dict.map entrySkeleton := by
          unfold analyseContainingLabels
          exact foldl_markContaining_skeletons _ _
        have hfac : ∀ (x : List (Span × TexSpan)), x.filterMap (fun y =>
            if y.2.scriptType == 0 && spanContains e.1 y.1 then some y.2.label
            else none)
            = (x.map entrySkeleton).filterMap (fun s =>
                if s.2.1 == 0 && spanContains e.1 s.1 then some s.2.2 else none) := by
          intro x
          rw [List.filterMap_map]
          rfl
        rw [hfac, hfac, hsk]

/-- Closed instance of c2_contained_labels at the parsed source x_a^b. -/
theorem c2_contained_labels_witness :
    ([0, 1, 2] : List Nat) = containedNormalLabels xabState (0, 5) :=
  c2_contained_labels xabChars [] xabState (by decide)
    ((0, 5), ⟨0, 0, [0, 1, 2]⟩) (by decide)

theorem foldl_dictInsert_append :
    ∀ (kvs acc : List (Nat × Nat)), (kvs.map (·.1)).Nodup →
      (∀ kv ∈ kvs, ∀ a ∈ acc, a.1 ≠ kv.1) →
      kvs.foldl dictInsert acc = acc ++ kvs
  | [], acc, _, _ => by simp
  | kv :: kvs, acc, hnd, hdisj => by
      rw [List.foldl_cons]
      have hins : dictInsert acc kv = acc ++ [kv] := by
        unfold dictInsert
        rw [if_neg]
        simp only [List.any_eq_true, beq_iff_eq, not_exists, not_and]
        intro a ha
        exact hdisj kv (List.mem_cons_self kv kvs) a ha
      rw [hins]
      rw [List.map_cons, List.nodup_cons] at hnd
      have hrec := foldl_dictInsert_append kvs (acc ++ [kv]) hnd.2 ?_
      · rw [hrec, List.append_assoc]
        rfl
      · intro kv' hkv' a ha
        rcases List.mem_append.mp ha with ha | ha
        · exact hdisj kv' (List.mem_cons_of_mem kv hkv') a ha
        · rcases List.mem_singleton.mp ha with rfl
          intro hfst
          exact hnd.1 (hfst ▸ List.mem_map_of_mem (·.1) hkv')

theorem scriptSpansDict_eq {st : ParserState}
    (hd : ((scriptSpansOf st).map (·.2)).Nodup) :
    scriptSpansDict st = (scriptSpansOf st).map (fun sp => (sp.2, sp.1)) := by
  have hlist : st.dict.filterMap
      (fun e => if e.2.scriptType == 0 then none else some (e.1.2, e.1.1))
      = (scriptSpansOf st).map (fun sp => (sp.2, sp.1)) := by
    unfold scriptSpansOf
    rw [List.map_filterMap]
    apply List.filterMap_congr
    intro e _
    split <;> rfl
  have hkeys : (((scriptSpansOf st).map (fun sp => (sp.2, sp.1))).map (·.1)).Nodup := by
    rw [List.map_map]
    exact hd
  unfold scriptSpansDict buildPyDict
  rw [hlist]
  have := foldl_dictInsert_append ((scriptSpansOf st).map (fun sp => (sp.2, sp.1)))
    [] hkeys (by intro kv _ a ha; cases ha)
  simpa using this

theorem find?_swap_eq (scripts : List Span) (e : Nat) :
    ((scripts.map (fun sp => (sp.2, sp.1))).find? (fun kv => kv.1 == e))
      = (scriptSpanEndingAt scripts e).map (fun sp => (sp.2, sp.1)) := by
  unfold scriptSpanEndingAt
  rw [List.find?_map]
  rfl

theorem walkEnd_eq_specWalk (scripts : List Span) :
    ∀ (fuel e : Nat),
      walkEnd ((scripts.map (fun sp => (sp.2, sp.1)))) fuel e
        = specWalk scripts fuel e
  | 0, _ => rfl
  | fuel + 1, e => by
      unfold walkEnd specWalk
      rw [find?_swap_eq]
      cases scriptSpanEndingAt scripts e with
      | none => rfl
      | some sp => exact walkEnd_eq_specWalk scripts fuel sp.1

theorem any_swap_eq (scripts : List Span) (e : Nat) :
    ((scripts.map (fun sp => (sp.2, sp.1))).any (fun kv => kv.2 == e))
      = scripts.any (fun sp => sp.1 == e) := by
  rw [List.any_map]
  rfl

theorem processAdditionalAux_eq_spec (scripts : List Span) :
    ∀ (occs : List Span) (st : ParserState),
      processAdditionalAux (scripts.map (fun sp => (sp.2, sp.1))) occs st
        = specProcessOccs scripts occs st
  | [], _ => rfl
  | (b, e) :: rest, st => by
      unfold processAdditionalAux specProcessOccs
      rw [List.foldl_cons]
      show _ = List.foldl _
        (match specNarrowOcc scripts (b, e) with
          | none => st
          | some sp => addSpecifiedSubstring (addTexSpan st sp 0 0) sp) rest
      unfold specNarrowOcc
      rw [any_swap_eq]
      cases hg : scripts.any (fun sp => sp.1 == e) with
      | false =>
          simp only [Bool.false_eq_true, if_false]
          exact processAdditionalAux_eq_spec scripts rest _
      | true =>
          simp only [if_true]
          rw [walkEnd_eq_specWalk]
          cases hle : decide (specWalk scripts (e + 1) e ≤ b) with
          | true =>
              simp only [of_decide_eq_true hle, if_true]
              exact processAdditionalAux_eq_spec scripts rest st
          | false =>
              simp only [of_decide_eq_false hle, if_false]
              exact processAdditionalAux_eq_spec scripts rest _

/-- C3 amended: the additional-substring phase narrows an occurrence exactly
when its end coincides with the begin of an existing script-wrapper span; the
walk then replaces the end by the begin of the script span ending there while
one exists, the occurrence is discarded when the range became empty and the
narrowed range is added and recorded otherwise, and every other occurrence is
added unchanged.  Stated for registries whose script spans have pairwise
distinct ends, which holds in every parse. -/
theorem c3_script_narrowing :
    ∀ (st : ParserState) (strings : List (List Char)),
      ((scriptSpansOf st).map (·.2)).Nodup →
      breakUpByAdditionalSubstrings st strings =
        specProcessOccs (scriptSpansOf st)
          ((strings.map (fun pat => occurrences st.texString pat)).flatten) st := by
  intro st strings hd
  unfold breakUpByAdditionalSubstrings
  rw [scriptSpansDict_eq hd]
  exact processAdditionalAux_eq_spec (scriptSpansOf st) _ st

/-- Closed instance of c3_script_narrowing at the parsed state of x_a^b with
the literal x_a requested. -/
theorem c3_script_narrowing_witness :
    ((scriptSpansOf xabState).map (·.2)).Nodup ∧
    breakUpByAdditionalSubstrings xabState [xaChars] =
      specProcessOccs (scriptSpansOf xabState)
        (([xaChars].map (fun pat => occurrences xabState.texString pat)).flatten)
        xabState :=
  ⟨by decide, c3_script_narrowing xabState [xaChars] (by decide)⟩

theorem firstSome_eq_some {f : α → Option β} :
    ∀ {l : List α} {r : β}, firstSome l f = some r → ∃ x ∈ l, f x = some r
  | [], _, h => by cases h
  | x :: xs, r, h => by
      unfold firstSome at h
      split at h
      · rename_i hfx
        cases h
        exact ⟨x, List.mem_cons_self x xs, hfx⟩
      · rcases firstSome_eq_some h with ⟨y, hy, hfy⟩
        exact ⟨y, List.mem_cons_of_mem x hy, hfy⟩

theorem firstSome_ne_none_of {f : α → Option β} :
    ∀ {l : List α} {x : α}, x ∈ l → f x ≠ none → firstSome l f ≠ none
  | [], _, hx, _ => absurd hx (List.not_mem_nil _)
  | y :: ys, x, hx, hfx => by
      unfold firstSome
      cases hfy : f y with
      | some r => simp
      | none =>
          rcases List.mem_cons.mp hx with rfl | hx
          · exact absurd hfy hfx
          · exact firstSome_ne_none_of hx hfx

theorem mem_findChoices {ks : List Span} {b e c : Nat} :
    c ∈ sortBy (fun x y => y ≤ x)
        ((ks.filter (fun s => s.1 == b && s.2 ≤ e)).map (·.2)) ↔
      ((b, c) ∈ ks ∧ c ≤ e) := by
  rw [mem_sortBy, List.mem_map]
  constructor
  · rintro ⟨s, hs, rfl⟩
    rcases List.mem_filter.mp hs with ⟨hmem, hcond⟩
    simp only [Bool.and_eq_true, beq_iff_eq, decide_eq_true_eq] at hcond
    refine ⟨?_, hcond.2⟩
    rw [← hcond.1, Prod.mk.eta]
    exact hmem
  · rintro ⟨hmem, hle⟩
    refine ⟨(b, c), List.mem_filter.mpr ⟨hmem, ?_⟩, rfl⟩
    simp [hle]

theorem findAux_sound {ks : List Span} :
    ∀ (fuel b e : Nat) (acc r : List Span),
      findAux ks fuel b e acc = some r →
      ∃ comps, r = acc ++ comps ∧ tiles ks comps b e
  | 0, b, e, acc, r, h => by
      unfold findAux at h
      split at h
      · cases h
        exact ⟨[], by simp, by rename_i hbe; exact beq_iff_eq.mp hbe⟩
      · cases h
  | fuel + 1, b, e, acc, r, h => by
      unfold findAux at h
      split at h
      · cases h
        exact ⟨[], by simp, by rename_i hbe; exact beq_iff_eq.mp hbe⟩
      · rcases firstSome_eq_some h with ⟨c, hc, hrec⟩
        rcases findAux_sound fuel c e (acc ++ [(b, c)]) r hrec with
          ⟨comps, rfl, htiles⟩
        rcases mem_findChoices.mp hc with ⟨hmem, _⟩
        exact ⟨(b, c) :: comps, by simp, hmem, rfl, htiles⟩

theorem tiles_le {ks : List Span} (hv : ∀ s ∈ ks, s.1 < s.2) :
    ∀ {comps : List Span} {b e : Nat}, tiles ks comps b e → b ≤ e
  | [], b, e, h => Nat.le_of_eq h
  | s :: rest, b, e, h => by
      rcases h with ⟨hmem, hfst, htl⟩
      have h1 : s.1 < s.2 := hv s hmem
      have h2 : s.2 ≤ e := tiles_le hv htl
      omega

theorem findAux_complete {ks : List Span} (hv : ∀ s ∈ ks, s.1 < s.2) :
    ∀ (comps : List Span) (b e : Nat) (acc : List Span) (fuel : Nat),
      tiles ks comps b e → e - b ≤ fuel → findAux ks fuel b e acc ≠ none
  | [], b, e, acc, fuel, htiles, _ => by
      have hbe : b = e := htiles
      cases fuel <;>
      · unfold findAux
        rw [if_pos (beq_iff_eq.mpr hbe)]
        simp
  | s :: rest, b, e, acc, fuel, htiles, hfuel => by
      rcases htiles with ⟨hmem, hfst, htl⟩
      have h1 : s.1 < s.2 := hv s hmem
      have h2 : s.2 ≤ e := tiles_le hv htl
      have hbe : b ≠ e := by omega
      cases fuel with
      | zero => omega
      | succ f =>
          unfold findAux
          rw [if_neg (by simpa using hbe)]
          refine firstSome_ne_none_of (x := s.2) ?_ ?_
          · refine mem_findChoices.mpr ⟨?_, h2⟩
            rw [← hfst, Prod.mk.eta]
            exact hmem
          · exact findAux_complete hv rest s.2 e (acc ++ [(b, s.2)]) f htl
              (by omega)

theorem getPartByCustomSpanTuple_spec {st : ParserState}
    (hv : ∀ s ∈ spanKeys st, s.1 < s.2) (sp : Span) :
    (getPartByCustomSpanTuple st sp = .err .noSpanCoverage ↔
      ¬ ∃ comps, tiles (spanKeys st) comps sp.1 sp.2) ∧
    (∀ comps, getPartByCustomSpanTuple st sp = .ok comps →
      tiles (spanKeys st) comps sp.1 sp.2) := by
  unfold getPartByCustomSpanTuple findSpanComponentsOfCustomSpan
  cases hfind : findAux (spanKeys st) (sp.2 - sp.1) sp.1 sp.2 [] with
  | none =>
      constructor
      · constructor
        · rintro - ⟨comps, htiles⟩
          exact findAux_complete hv comps sp.1 sp.2 [] (sp.2 - sp.1) htiles
            (Nat.le_refl _) hfind
        · intro _
          rfl
      · intro comps h
        cases h
  | some r =>
      constructor
      · constructor
        · intro h
          cases h
        · intro hno
          rcases findAux_sound _ _ _ _ _ hfind with ⟨cs, hcs, htiles⟩
          exact (hno ⟨cs, htiles⟩).elim
      · intro comps h
        cases h
        rcases findAux_sound _ _ _ _ _ hfind with ⟨comps', heq, htiles⟩
        rw [List.nil_append] at heq
        rw [heq]
        exact htiles

/-- C6: with every registered span nonempty (true of every parse), the custom
span query fails with the coverage error exactly when no sequence of
registered spans tiles the requested range, and any returned decomposition is
such a tiling. -/
theorem c6_custom_span_query :
    ∀ (st : ParserState) (sp : Span),
      (∀ s ∈ spanKeys st, s.1 < s.2) →
      ((getPartByCustomSpanTuple st sp = .err .noSpanCoverage ↔
        ¬ ∃ comps, tiles (spanKeys st) comps sp.1 sp.2) ∧
      (∀ comps, getPartByCustomSpanTuple st sp = .ok comps →
        tiles (spanKeys st) comps sp.1 sp.2)) := by
  intro st sp hv
  exact getPartByCustomSpanTuple_spec hv sp

/-- Closed instance of c6_custom_span_query at the parsed source ab and the
range of the literal b. -/
theorem c6_custom_span_query_witness :
    (∀ s ∈ spanKeys abState, s.1 < s.2) ∧
    ((getPartByCustomSpanTuple abState (1, 2) = .err .noSpanCoverage ↔
      ¬ ∃ comps, tiles (spanKeys abState) comps 1 2) ∧
    (∀ comps, getPartByCustomSpanTuple abState (1, 2) = .ok comps →
      tiles (spanKeys abState) comps 1 2)) :=
  ⟨by decide, c6_custom_span_query abState (1, 2) (by decide)⟩

/-! Error behaviour of the literal-substring query. -/

theorem getPartByCustomSpanTuple_err_eq {st : ParserState} {sp : Span}
    {e : QueryError} (h : getPartByCustomSpanTuple st sp = .err e) :
    e = .noSpanCoverage := by
  unfold getPartByCustomSpanTuple at h
  split at h
  · cases h
    rfl
  · cases h

theorem getPartByCustomSpanTuple_total (st : ParserState) (sp : Span) :
    (∃ p, getPartByCustomSpanTuple st sp = .ok p) ∨
      getPartByCustomSpanTuple st sp = .err .noSpanCoverage := by
  unfold getPartByCustomSpanTuple
  split
  · right
    rfl
  · left
    exact ⟨_, rfl⟩

theorem getPartByCustomSpanTuple_ok_iff {st : ParserState}
    (hv : ∀ s ∈ spanKeys st, s.1 < s.2) (sp : Span) :
    (∃ p, getPartByCustomSpanTuple st sp = .ok p) ↔
      ∃ comps, tiles (spanKeys st) comps sp.1 sp.2 := by
  constructor
  · rintro ⟨p, hp⟩
    by_contra hno
    have herr := ((getPartByCustomSpanTuple_spec hv sp).1).mpr hno
    rw [hp] at herr
    cases herr
  · rintro ⟨comps, ht⟩
    rcases getPartByCustomSpanTuple_total st sp with hok | herr
    · exact hok
    · have hno := ((getPartByCustomSpanTuple_spec hv sp).1).mp herr
      exact (hno ⟨comps, ht⟩).elim

theorem collectParts_err_eq {st : ParserState} :
    ∀ (occs : List Span) (e : QueryError),
      collectParts st occs = .err e → e = .noSpanCoverage
  | [], _, h => by cases h
  | occ :: rest, e, h => by
      unfold collectParts at h
      split at h
      · cases h
        exact getPartByCustomSpanTuple_err_eq (by assumption)
      · split at h
        · cases h
          exact collectParts_err_eq rest e (by assumption)
        · cases h

theorem collectParts_ok_iff {st : ParserState} :
    ∀ occs : List Span, (∃ ps, collectParts st occs = .ok ps) ↔
      ∀ occ ∈ occs, ∃ p, getPartByCustomSpanTuple st occ = .ok p
  | [] => by
      constructor
      · intro _ occ hocc
        cases hocc
      · intro _
        exact ⟨[], rfl⟩
  | occ :: rest => by
      unfold collectParts
      cases hh : getPartByCustomSpanTuple st occ with
      | err e =>
          constructor
          · rintro ⟨ps, hps⟩
            cases hps
          · intro hall
            rcases hall occ (List.mem_cons_self occ rest) with ⟨p, hp⟩
            rw [hh] at hp
            cases hp
      | ok p =>
          cases hrest : collectParts st rest with
          | err e =>
              constructor
              · rintro ⟨ps, hps⟩
                cases hps
              · intro hall
                rcases (collectParts_ok_iff rest).mpr
                  (fun o ho => hall o (List.mem_cons_of_mem occ ho)) with ⟨ps, hps⟩
                rw [hrest] at hps
                cases hps
          | ok ps =>
              constructor
              · intro _ o ho
                rcases List.mem_cons.mp ho with rfl | ho
                · exact ⟨p, hh⟩
                · exact (collectParts_ok_iff rest).mp ⟨ps, hrest⟩ o ho
              · intro _
                exact ⟨p :: ps, rfl⟩

theorem collectParts_length {st : ParserState} :
    ∀ (occs : List Span) (ps : List (List Span)),
      collectParts st occs = .ok ps → ps.length = occs.length
  | [], ps, h => by
      cases h
      rfl
  | occ :: rest, ps, h => by
      unfold collectParts at h
      split at h
      · cases h
      · split at h
        · cases h
        · cases h
          rename_i p _ ps' hrest
          simp only [List.length_cons]
          rw [collectParts_length rest ps' hrest]

theorem collectParts_err_iff {st : ParserState} :
    ∀ occs : List Span, collectParts st occs = .err .noSpanCoverage ↔
      ∃ occ ∈ occs, getPartByCustomSpanTuple st occ = .err .noSpanCoverage
  | [] => by
      constructor
      · intro h
        cases h
      · rintro ⟨occ, hocc, _⟩
        cases hocc
  | occ :: rest => by
      unfold collectParts
      cases hh : getPartByCustomSpanTuple st occ with
      | err e =>
          have he := getPartByCustomSpanTuple_err_eq hh
          subst he
          constructor
          · intro _
            exact ⟨occ, List.mem_cons_self occ rest, hh⟩
          · intro _
            rfl
      | ok p =>
          cases hrest : collectParts st rest with
          | err e2 =>
              constructor
              · intro h
                cases h
                rcases (collectParts_err_iff rest).mp hrest with ⟨o, ho, hoe⟩
                exact ⟨o, List.mem_cons_of_mem occ ho, hoe⟩
              · rintro ⟨o, ho, hoe⟩
                rcases List.mem_cons.mp ho with rfl | ho
                · rw [hh] at hoe
                  cases hoe
                · have h2 := (collectParts_err_iff rest).mpr ⟨o, ho, hoe⟩
                  rw [hrest] at h2
                  cases h2
                  rfl
          | ok ps =>
              constructor
              · intro h
                cases h
              · rintro ⟨o, ho, hoe⟩
                rcases List.mem_cons.mp ho with rfl | ho
                · rw [hh] at hoe
                  cases hoe
                · have h2 := (collectParts_err_iff rest).mpr ⟨o, ho, hoe⟩
                  rw [hrest] at h2
                  cases h2

/-- C8 amended: under the parse invariant that registered spans are nonempty,
the indexed literal query succeeds exactly when the occurrence index is in
range and every occurrence of the literal can be tiled by registered spans;
it fails with the coverage error exactly when some occurrence cannot be
tiled, even though the literal is present and the index is in range; absence
of the literal or an out-of-range index surface as the index error instead. -/
theorem c8_get_part_by_tex :
    ∀ (st : ParserState) (pat : List Char) (i : Nat),
      (∀ s ∈ spanKeys st, s.1 < s.2) →
      ((∃ p, getPartByTex st pat i = .ok p) ↔
        (i < (occurrences st.texString pat).length ∧
         ∀ occ ∈ occurrences st.texString pat,
           ∃ comps, tiles (spanKeys st) comps occ.1 occ.2)) ∧
      (getPartByTex st pat i = .err .noSpanCoverage ↔
        ∃ occ ∈ occurrences st.texString pat,
          ¬ ∃ comps, tiles (spanKeys st) comps occ.1 occ.2) := by
  intro st pat i hv
  cases hc : collectParts st (occurrences st.texString pat) with
  | err e =>
      have he := collectParts_err_eq _ e hc
      subst he
      have hgpt : getPartByTex st pat i = .err .noSpanCoverage := by
        unfold getPartByTex getPartsByTex
        rw [hc]
      rcases (collectParts_err_iff _).mp hc with ⟨o, ho, hoe⟩
      have hno : ¬ ∃ comps, tiles (spanKeys st) comps o.1 o.2 := by
        intro hex
        rcases (getPartByCustomSpanTuple_ok_iff hv o).mpr hex with ⟨p, hp⟩
        rw [hoe] at hp
        cases hp
      constructor
      · constructor
        · rintro ⟨p, hp⟩
          rw [hgpt] at hp
          cases hp
        · rintro ⟨hlen, hall⟩
          exact (hno (hall o ho)).elim
      · constructor
        · intro _
          exact ⟨o, ho, hno⟩
        · intro _
          exact hgpt
  | ok parts =>
      have hlen := collectParts_length _ parts hc
      have hall := (collectParts_ok_iff _).mp ⟨parts, hc⟩
      have htiling : ∀ occ ∈ occurrences st.texString pat,
          ∃ comps, tiles (spanKeys st) comps occ.1 occ.2 := by
        intro o ho
        exact (getPartByCustomSpanTuple_ok_iff hv o).mp (hall o ho)
      have hnone : ¬ ∃ occ ∈ occurrences st.texString pat,
          ¬ ∃ comps, tiles (spanKeys st) comps occ.1 occ.2 := by
        rintro ⟨o, ho, hno⟩
        exact hno (htiling o ho)
      cases hget : parts.get? i with
      | none =>
          have hout := List.get?_eq_none.mp hget
          have hgpt : getPartByTex st pat i = .err .indexOutOfRange := by
            unfold getPartByTex getPartsByTex
            rw [hc]
            dsimp only
            rw [hget]
          constructor
          · constructor
            · rintro ⟨p, hp⟩
              rw [hgpt] at hp
              cases hp
            · rintro ⟨hlt, _⟩
              omega
          · constructor
            · intro h
              rw [hgpt] at h
              cases h
            · intro hex
              exact (hnone hex).elim
      | some p =>
          have hin : i < parts.length := by
            by_contra hge
            rw [List.get?_eq_none.mpr (Nat.le_of_not_lt hge)] at hget
            cases hget
          have hgpt : getPartByTex st pat i = .ok p := by
            unfold getPartByTex getPartsByTex
            rw [hc]
            dsimp only
            rw [hget]
          constructor
          · constructor
            · intro _
              exact ⟨by omega, htiling⟩
            · intro _
              exact ⟨p, hgpt⟩
          · constructor
            · intro h
              rw [hgpt] at h
              cases h
            · intro hex
              exact (hnone hex).elim

/-- Closed instance of c8_get_part_by_tex at the parsed source ab and the
literal b at occurrence index 0. -/
theorem c8_get_part_by_tex_witness :
    (∀ s ∈ spanKeys abState, s.1 < s.2) ∧
    (((∃ p, getPartByTex abState bPat 0 = .ok p) ↔
      (0 < (occurrences abState.texString bPat).length ∧
       ∀ occ ∈ occurrences abState.texString bPat,
         ∃ comps, tiles (spanKeys abState) comps occ.1 occ.2)) ∧
    (getPartByTex abState bPat 0 = .err .noSpanCoverage ↔
      ∃ occ ∈ occurrences abState.texString bPat,
        ¬ ∃ comps, tiles (spanKeys abState) comps occ.1 occ.2)) :=
  ⟨by decide, c8_get_part_by_tex abState bPat 0 (by decide)⟩

/-! Idempotence of the isolation list and absence of duplicates in the
introspection list. -/

theorem dedupFoldl_mem_mono [DecidableEq α] :
    ∀ (l acc : List α) (x : α), x ∈ acc →
      x ∈ l.foldl (fun acc x => if x ∈ acc then acc else acc ++ [x]) acc
  | [], _, _, h => h
  | y :: l, acc, x, h => by
      rw [List.foldl_cons]
      apply dedupFoldl_mem_mono l
      split
      · exact h
      · exact List.mem_append_left _ h

theorem mem_dedupStep [DecidableEq α] (acc : List α) (s : α) :
    s ∈ (if s ∈ acc then acc else acc ++ [s]) := by
  split
  · assumption
  · exact List.mem_append_right _ (List.mem_singleton.mpr rfl)

theorem dedupFoldl_sandwich [DecidableEq α] (l1 : List α) (s : α)
    (l2 l3 acc : List α) :
    (l1 ++ s :: (l2 ++ s :: l3)).foldl
        (fun acc x => if x ∈ acc then acc else acc ++ [x]) acc
      = (l1 ++ s :: (l2 ++ l3)).foldl
          (fun acc x => if x ∈ acc then acc else acc ++ [x]) acc := by
  rw [List.foldl_append, List.foldl_cons, List.foldl_append, List.foldl_cons,
    List.foldl_append, List.foldl_cons, List.foldl_append]
  have hmem : s ∈ (l2.foldl (fun acc x => if x ∈ acc then acc else acc ++ [x])
      (if s ∈ l1.foldl (fun acc x => if x ∈ acc then acc else acc ++ [x]) acc
        then l1.foldl (fun acc x => if x ∈ acc then acc else acc ++ [x]) acc
        else l1.foldl (fun acc x => if x ∈ acc then acc else acc ++ [x]) acc ++ [s])) :=
    dedupFoldl_mem_mono l2 _ s (mem_dedupStep _ s)
  rw [if_pos hmem]

theorem dedupFoldl_nodup [DecidableEq α] :
    ∀ (l acc : List α), acc.Nodup →
      (l.foldl (fun acc x => if x ∈ acc then acc else acc ++ [x]) acc).Nodup
  | [], _, h => h
  | x :: l, acc, h => by
      rw [List.foldl_cons]
      apply dedupFoldl_nodup l
      split
      · exact h
      · rename_i hx
        rw [List.nodup_append]
        refine ⟨h, List.nodup_singleton x, ?_⟩
        intro a ha hax
        rcases List.mem_singleton.mp hax with rfl
        exact hx ha

theorem dedupKeepFirst_sandwich [DecidableEq α] (l1 : List α) (s : α)
    (l2 l3 : List α) :
    dedupKeepFirst (l1 ++ s :: (l2 ++ s :: l3))
      = dedupKeepFirst (l1 ++ s :: (l2 ++ l3)) :=
  dedupFoldl_sandwich l1 s l2 l3 []

/-- C9: requesting the same substring twice in the isolate list yields the
same parse result as requesting it once, and the list of all isolated
substrings never contains duplicate entries. -/
theorem c9_isolation_idempotent :
    (∀ (tex : List Char) (tcm l1 l2 l3 : List (List Char)) (s : List Char),
        mtexParse tex tcm (l1 ++ s :: (l2 ++ s :: l3))
          = mtexParse tex tcm (l1 ++ s :: (l2 ++ l3))) ∧
    (∀ st : ParserState, (getAllIsolatedSubstrings st).Nodup) := by
  constructor
  · intro tex tcm l1 l2 l3 s
    unfold mtexParse getAdditionalSubstringsToBreakUp
    have h1 : tcm ++ (l1 ++ s :: (l2 ++ s :: l3))
        = (tcm ++ l1) ++ s :: (l2 ++ s :: l3) := by
      rw [List.append_assoc]
    have h2 : tcm ++ (l1 ++ s :: (l2 ++ l3))
        = (tcm ++ l1) ++ s :: (l2 ++ l3) := by
      rw [List.append_assoc]
    rw [h1, h2, dedupKeepFirst_sandwich]
  · intro st
    exact dedupFoldl_nodup _ [] List.nodup_nil

/-- C10: an unescaped closing brace with no unmatched opening brace before it
makes the brace scan pop from an empty stack, the unstructured error, while
the structured unmatched-braces error arises for an opening brace left
unmatched at end of input, and balanced braces scan cleanly. -/
theorem c10_pop_from_empty_stack :
    getBraceIndexPairs aCloseChars = .err .popFromEmptyStack ∧
    getBraceIndexPairs aOpenChars = .err .unmatchedBraces ∧
    getBraceIndexPairs aBracedChars = .ok [(1, 4)] := by
  decide

end MTex
